import Mathlib

/-!
Verification of the text-processing core of the writing-tools repository
(GoogleDocs Scripts/DocumentTools.js): the case-transformation lambdas
passed to processSelectedText (convertToLowerCase, convertToUpperCase,
convertToInitialCaps, convertToSentenceCase, convertToTitleCase), the
link-classification logic of processLinkValidation, and trimLinkSpaces.

Strings are modelled as lists of Unicode scalar values (List Char).
JavaScript's String.prototype.toLowerCase/toUpperCase follow the Unicode
default case conversion; the model below is exact on ASCII and on the
length-changing special cases relevant here (U+00DF sharp s uppercases to
"SS", U+0130 dotted capital I lowercases to "i" plus U+0307); all other
characters are mapped to themselves.  Every theorem that depends on the
case maps either restricts its input to the exact region of the model or
only applies them to ASCII word characters, where the model agrees with
JavaScript.
-/

/-- Character class of the JavaScript regex escape for whitespace
(the class written backslash-s): space, tab through carriage return,
no-break space, ogham space mark, the U+2000 to U+200A range, line and
paragraph separators, narrow no-break space, medium mathematical space,
ideographic space, and the byte-order mark. -/
def jsWhitespace (c : Char) : Bool :=
  c.toNat == 0x20 || (0x9 ≤ c.toNat && c.toNat ≤ 0xD) || c.toNat == 0xA0 ||
  c.toNat == 0x1680 || (0x2000 ≤ c.toNat && c.toNat ≤ 0x200A) ||
  c.toNat == 0x2028 || c.toNat == 0x2029 || c.toNat == 0x202F ||
  c.toNat == 0x205F || c.toNat == 0x3000 || c.toNat == 0xFEFF

/-- Character class of the JavaScript regex escape for word characters
(the class written backslash-w): ASCII letters, digits and underscore. -/
def jsWordChar (c : Char) : Bool :=
  (0x30 ≤ c.toNat && c.toNat ≤ 0x39) || (0x41 ≤ c.toNat && c.toNat ≤ 0x5A) ||
  (0x61 ≤ c.toNat && c.toNat ≤ 0x7A) || c.toNat == 0x5F

/-- Model of JavaScript toUpperCase on a single scalar value: ASCII
lowercase letters map to uppercase, U+00DF maps to the two-character
string "SS" (the length-changing Unicode special case), all other
characters map to themselves. -/
def jsUpperChar (c : Char) : List Char :=
  if c.toNat == 0xDF then ['S', 'S'] else [c.toUpper]

/-- Model of JavaScript toLowerCase on a single scalar value: ASCII
uppercase letters map to lowercase, U+0130 maps to "i" followed by the
combining dot above U+0307 (the length-changing Unicode special case),
all other characters map to themselves. -/
def jsLowerChar (c : Char) : List Char :=
  if c.toNat == 0x130 then ['i', Char.ofNat 0x307] else [c.toLower]

/-- Model of JavaScript String.prototype.toUpperCase. -/
def jsToUpper (s : List Char) : List Char :=
  (s.map jsUpperChar).flatten

/-- Model of JavaScript String.prototype.toLowerCase. -/
def jsToLower (s : List Char) : List Char :=
  (s.map jsLowerChar).flatten

/-- The pure transform passed to processSelectedText by the source
function convertToLowerCase: text.toLowerCase(). -/
def convertToLowerCase (s : List Char) : List Char :=
  jsToLower s

/-- The pure transform passed to processSelectedText by the source
function convertToUpperCase: text.toUpperCase(). -/
def convertToUpperCase (s : List Char) : List Char :=
  jsToUpper s

/-- Recursion for convertToInitialCaps.  The flag records whether the
previous character was a non-word character (true at the start of the
string), which is exactly when the regex word boundary before a word
character matches. -/
def initialCapsGo (boundary : Bool) : List Char → List Char
  | [] => []
  | c :: rest =>
    (if boundary && jsWordChar c then c.toUpper else c) ::
      initialCapsGo (!jsWordChar c) rest

/-- The pure transform passed to processSelectedText by the source
function convertToInitialCaps: replace every word character that sits at
a word boundary by its uppercase form.  The replaced characters are ASCII
word characters, whose JavaScript uppercase form is the single ASCII
uppercase character. -/
def convertToInitialCaps (s : List Char) : List Char :=
  initialCapsGo true s

/-- The pure transform passed to processSelectedText by the source
function convertToSentenceCase: lowercase the whole string, then
uppercase its first character (JavaScript charAt(0).toUpperCase() plus
slice(1); for the empty string the source returns it unchanged). -/
def convertToSentenceCase (s : List Char) : List Char :=
  match jsToLower s with
  | [] => []
  | c :: rest => jsUpperChar c ++ rest

/-- Result category of processLinkValidation, the type field of the
record it returns. -/
inductive LinkType where
  | skipped
  | invalid
  | broken
  | apple
  | valid
deriving DecidableEq

/-- The fixed table VALID_NON_HTTP_PROTOCOLS of the source. -/
def VALID_NON_HTTP_PROTOCOLS : List (List Char) :=
  ["mailto:", "tel:", "sms:", "ftp:", "sftp:", "file:"].map String.toList

/-- Substring containment, the semantics of JavaScript
String.prototype.includes: the pattern occurs contiguously at some
position of the string. -/
def containsSub (s pat : List Char) : Bool :=
  match s with
  | [] => pat.isPrefixOf ([] : List Char)
  | c :: t => pat.isPrefixOf (c :: t) || containsSub t pat

/-- Classification logic of the source function processLinkValidation,
with the host styling calls stripped.  The first component is the type
field of the returned record; the second component counts how many times
isLinkBroken (here the injected isBroken) is invoked, which the source
does at most once per call.  The function is total: every string input
yields a result. -/
def processLinkValidation (isBroken : List Char → Bool) (url : List Char) :
    LinkType × Nat :=
  let urlLower := jsToLower url
  if VALID_NON_HTTP_PROTOCOLS.any (fun q => q.isPrefixOf urlLower) then
    (LinkType.skipped, 0)
  else if !(("http://".toList.isPrefixOf urlLower) ||
            ("https://".toList.isPrefixOf urlLower)) then
    (LinkType.invalid, 0)
  else if containsSub urlLower "apple.com".toList then
    (if isBroken url then (LinkType.broken, 1) else (LinkType.apple, 1))
  else
    (if isBroken url then (LinkType.broken, 1) else (LinkType.valid, 1))

/-- The mutable link record handled by the link-checking functions: the
url together with the startOffset and endOffset fields that
trimLinkSpaces updates in place. -/
structure LinkInfo where
  url : List Char
  startOffset : Nat
  endOffset : Nat
deriving DecidableEq

/-- One document-host mutation performed by trimLinkSpaces on the text
element: element.setLinkUrl(from, to, url) or
element.setUnderline(from, to, flag). -/
inductive HostCall where
  | setLinkUrl : Nat → Nat → Option (List Char) → HostCall
  | setUnderline : Nat → Nat → Bool → HostCall
deriving DecidableEq

/-- JavaScript String.prototype.substring: both arguments are clamped to
the string length and swapped when out of order. -/
def jsSubstring (s : List Char) (a b : Nat) : List Char :=
  (s.take (max (min a s.length) (min b s.length))).drop
    (min (min a s.length) (min b s.length))

/-- The second while loop of trimLinkSpaces: decrement trimEnd while it
exceeds trimStart and the character just before it is a space.  Indexing
past the end yields undefined in JavaScript, which is not a space; the
getD default plays that role. -/
def trimEndLoop (lt : List Char) (tStart : Nat) : Nat → Nat
  | 0 => 0
  | e + 1 =>
    if tStart < e + 1 && lt.getD e 'A' == ' ' then trimEndLoop lt tStart e
    else e + 1

/-- The source function trimLinkSpaces.  It receives the text of the
element holding the link and the link record, and returns the source's
return value (the trimmedUrl and the spacesTrimmed flag), the updated
link record (the source mutates link.startOffset and link.endOffset in
place), and the list of document-host calls it performs, in order. -/
def trimLinkSpaces (elementText : List Char) (link : LinkInfo) :
    (List Char × Bool) × LinkInfo × List HostCall :=
  let linkedText := jsSubstring elementText link.startOffset link.endOffset
  let trimStart := (linkedText.takeWhile (fun c => c == ' ')).length
  let trimEnd := trimEndLoop linkedText trimStart linkedText.length
  if trimStart == 0 && trimEnd == linkedText.length then
    ((link.url, false), link, [])
  else
    let newStart := link.startOffset + trimStart
    let newEnd := link.startOffset + trimEnd
    if newEnd ≤ newStart then
      ((link.url, false), link, [])
    else
      ((link.url, true),
       { link with startOffset := newStart, endOffset := newEnd },
       [HostCall.setLinkUrl link.startOffset (link.endOffset - 1) none] ++
       (if 0 < trimStart then
          [HostCall.setUnderline link.startOffset (newStart - 1) false]
        else []) ++
       (if trimEnd < linkedText.length then
          [HostCall.setUnderline newEnd (link.endOffset - 1) false]
        else []) ++
       [HostCall.setLinkUrl newStart (newEnd - 1) (some link.url)])

/-- Is the character one of the three separator characters of the
title-case split pattern: hyphen-minus, em dash, or colon? -/
def isSepChar (c : Char) : Bool :=
  c == '-' || c == '—' || c == ':'

/-- The split of the title-case source, text.split on the capturing
pattern whose alternatives are a maximal whitespace run or a single
separator character.  Captured separators are kept in the result, and
the (possibly empty) pieces before, between and after separators are
kept as well, exactly as JavaScript String.prototype.split does.  The
inWs flag tells whether the reversed accumulator holds a pending
whitespace run (separator token) or a pending piece. -/
def splitGo (inWs : Bool) (acc : List Char) : List Char → List (List Char)
  | [] => if inWs then [acc.reverse, []] else [acc.reverse]
  | c :: rest =>
    if inWs then
      if jsWhitespace c then splitGo true (c :: acc) rest
      else if isSepChar c then
        acc.reverse :: [] :: [c] :: splitGo false [] rest
      else acc.reverse :: splitGo false [c] rest
    else
      if jsWhitespace c then acc.reverse :: splitGo true [c] rest
      else if isSepChar c then acc.reverse :: [c] :: splitGo false [] rest
      else splitGo false (c :: acc) rest

/-- The token sequence words of the title-case source. -/
def splitTokens (s : List Char) : List (List Char) :=
  splitGo false [] s

/-- Does the token match the pure-whitespace test of the source, the
anchored regex of one or more whitespace characters? -/
def isWhitespaceToken (w : List Char) : Bool :=
  !w.isEmpty && w.all jsWhitespace

/-- The predicate of the every-callbacks computing isFirstWord and
isLastWord in the source: the token is pure whitespace, a bare dash, a
bare em dash, or a bare colon. -/
def everyCheck (w : List Char) : Bool :=
  isWhitespaceToken w || w == ['-'] || w == ['—'] || w == [':']

/-- The fixed set TITLE_CASE_LOWERCASE_WORDS of the source, with the
same elements (the source lists the word for twice; set membership is
unaffected). -/
def stopWords : List (List Char) :=
  ["a", "an", "the", "and", "but", "or", "nor", "for", "so", "yet",
   "as", "at", "by", "for", "from", "in", "into", "of", "off", "on",
   "onto", "out", "over", "to", "up", "with", "via"].map String.toList

/-- The decomposition regex of the source, anchored: an optional run of
non-word characters, one or more word characters, an optional run of
non-word characters.  The greedy match succeeds exactly when the token
is such a three-run concatenation, and the decomposition is then
unique: leading non-word run, word run, and a remainder that must
contain no word character. -/
def decompose (w : List Char) :
    Option (List Char × List Char × List Char) :=
  let lead := w.takeWhile (fun c => !jsWordChar c)
  let rest := w.dropWhile (fun c => !jsWordChar c)
  let core := rest.takeWhile jsWordChar
  let tail := rest.dropWhile jsWordChar
  if core.isEmpty || tail.any jsWordChar then none
  else some (lead, core, tail)

/-- Capitalization of the source: charAt(0).toUpperCase() plus
slice(1).  On the empty string JavaScript returns the empty string. -/
def capFirst : List Char → List Char
  | [] => []
  | c :: rest => jsUpperChar c ++ rest

/-- Processing of a single token of the title-case source, given the
full token list, the token index, and the current value of the
afterColonOrDash flag.  Returns the emitted token and the new flag
value.  This is a line-by-line transcription of the map callback. -/
def processToken (words : List (List Char)) (idx : Nat) (flag : Bool)
    (w : List Char) : List Char × Bool :=
  if isWhitespaceToken w || w == ['-'] || w == ['—'] then (w, flag)
  else if w == [':'] then (w, true)
  else
    match decompose w with
    | none => (w, flag)
    | some (lead, core, tail) =>
      let lowerWord := jsToLower core
      let isFirstWord := (words.take idx).all everyCheck
      let isLastWord := (words.drop (idx + 1)).all everyCheck
      let shouldCapitalize := isFirstWord || isLastWord || flag ||
        !(stopWords.contains lowerWord)
      let flag2 := if flag && w.any jsWordChar then false else flag
      let capitalizedWord :=
        if shouldCapitalize then capFirst lowerWord else lowerWord
      (lead ++ capitalizedWord ++ tail, flag2)

/-- The evolution of the afterColonOrDash flag across one token; equal
to the second component of processToken, which does not depend on the
token list or the index. -/
def flagStep (flag : Bool) (w : List Char) : Bool :=
  if isWhitespaceToken w || w == ['-'] || w == ['—'] then flag
  else if w == [':'] then true
  else
    match decompose w with
    | none => flag
    | some _ => if flag && w.any jsWordChar then false else flag

/-- The stateful map of the title-case source: process the tokens left
to right, threading the afterColonOrDash flag, with access to the full
token list for the isFirstWord and isLastWord scans. -/
def mapTokensGo (words : List (List Char)) :
    Nat → Bool → List (List Char) → List (List Char)
  | _, _, [] => []
  | idx, flag, w :: rest =>
    (processToken words idx flag w).1 ::
      mapTokensGo words (idx + 1) (processToken words idx flag w).2 rest

/-- The list titleCaseWords of the source: every token of the split,
processed in order with the flag initially false. -/
def titleTokens (s : List Char) : List (List Char) :=
  mapTokensGo (splitTokens s) 0 false (splitTokens s)

/-- The value of the afterColonOrDash flag when the token at the given
index is processed: the fold of the flag evolution over the earlier
tokens. -/
def flagAt (words : List (List Char)) (idx : Nat) : Bool :=
  (words.take idx).foldl flagStep false

/-- The pure transform passed to processSelectedText by the source
function convertToTitleCase: split, process every token, and join. -/
def convertToTitleCase (s : List Char) : List Char :=
  (titleTokens s).flatten

/-- ASCII case folding: map an ASCII uppercase letter to its lowercase
code point, leave every other character's code point unchanged.  Two
characters with the same fold differ at most in ASCII letter case. -/
def caseFold (c : Char) : Nat :=
  if 65 ≤ c.toNat ∧ c.toNat ≤ 90 then c.toNat + 32 else c.toNat

/-- The characters a and b are equal up to ASCII letter case. -/
def caseEqP (a b : Char) : Prop :=
  caseFold a = caseFold b

theorem charToNat_ofNat (n : Nat) (h : n < 55296) : (Char.ofNat n).toNat = n := by
  have hv : n.isValidChar := Or.inl h
  simp [Char.ofNat, hv, Char.ofNatAux, Char.toNat, UInt32.toNat]

theorem toNat_toUpper (c : Char) :
    c.toUpper.toNat = if 97 ≤ c.toNat ∧ c.toNat ≤ 122 then c.toNat - 32 else c.toNat := by
  simp only [Char.toUpper, ge_iff_le]
  split
  case isTrue h => exact charToNat_ofNat _ (by omega)
  case isFalse h => rfl

theorem toNat_toLower (c : Char) :
    c.toLower.toNat = if 65 ≤ c.toNat ∧ c.toNat ≤ 90 then c.toNat + 32 else c.toNat := by
  simp only [Char.toLower, ge_iff_le]
  split
  case isTrue h => exact charToNat_ofNat _ (by omega)
  case isFalse h => rfl

/-- Claim C3: for every URL that starts, after lowercasing, with the
http or https scheme and whose lowercased form contains apple.com, the
classification is broken when the injected isBroken returns true and
apple when it returns false (broken takes precedence), and isBroken is
invoked exactly once (the second component of the result counts the
invocations). -/
theorem classify_apple (url : List Char) (isBroken : List Char → Bool)
    (hhttp : ("http://".toList.isPrefixOf (jsToLower url) ||
              "https://".toList.isPrefixOf (jsToLower url)) = true)
    (happle : containsSub (jsToLower url) "apple.com".toList = true) :
    processLinkValidation isBroken url =
      ((if isBroken url then LinkType.broken else LinkType.apple), 1) := by
  have hnon : VALID_NON_HTTP_PROTOCOLS.any
      (fun q => q.isPrefixOf (jsToLower url)) = false := by
    rw [List.any_eq_false]
    intro q hq
    intro hpre
    have hqp : q <+: jsToLower url := List.isPrefixOf_iff_prefix.mp hpre
    rcases Bool.or_eq_true_iff.mp hhttp with h7 | h8
    · have hup : "http://".toList <+: jsToLower url :=
        List.isPrefixOf_iff_prefix.mp h7
      rcases List.prefix_or_prefix_of_prefix hqp hup with hc | hc <;>
        (simp only [VALID_NON_HTTP_PROTOCOLS, List.mem_map, List.mem_cons,
           List.mem_singleton] at hq
         rcases hq with ⟨x, hx, rfl⟩
         rcases hx with rfl | rfl | rfl | rfl | rfl | rfl | h0
         all_goals first
           | (exact absurd hc (by decide))
           | cases h0)
    · have hup : "https://".toList <+: jsToLower url :=
        List.isPrefixOf_iff_prefix.mp h8
      rcases List.prefix_or_prefix_of_prefix hqp hup with hc | hc <;>
        (simp only [VALID_NON_HTTP_PROTOCOLS, List.mem_map, List.mem_cons,
           List.mem_singleton] at hq
         rcases hq with ⟨x, hx, rfl⟩
         rcases hx with rfl | rfl | rfl | rfl | rfl | rfl | h0
         all_goals first
           | (exact absurd hc (by decide))
           | cases h0)
  simp only [processLinkValidation, hnon, hhttp, happle, Bool.not_true,
    Bool.false_eq_true, if_false, if_true]
  split <;> rfl

/-- Claim C4: for every URL whose lowercased form starts with one of
the six fixed non-HTTP protocol prefixes, the classification is
skipped-non-http and isBroken is never invoked (invocation count 0),
for every possible isBroken. -/
theorem classify_nonhttp (url : List Char) (isBroken : List Char → Bool)
    (h : VALID_NON_HTTP_PROTOCOLS.any
      (fun q => q.isPrefixOf (jsToLower url)) = true) :
    processLinkValidation isBroken url = (LinkType.skipped, 0) := by
  simp only [processLinkValidation, h, if_true]

/-- Claim C6: for every URL whose lowercased form starts with none of
the six non-HTTP prefixes and not with http or https, the
classification is invalid-protocol and isBroken is never invoked; the
classifier is a total function, so it never fails on any string. -/
theorem classify_invalid (url : List Char) (isBroken : List Char → Bool)
    (hnon : VALID_NON_HTTP_PROTOCOLS.any
      (fun q => q.isPrefixOf (jsToLower url)) = false)
    (hhttp : ("http://".toList.isPrefixOf (jsToLower url) ||
              "https://".toList.isPrefixOf (jsToLower url)) = false) :
    processLinkValidation isBroken url = (LinkType.invalid, 0) := by
  simp only [processLinkValidation, hnon, hhttp, Bool.not_false,
    Bool.false_eq_true, if_false, if_true]

theorem classify_apple_witness :
    (("http://".toList.isPrefixOf
        (jsToLower "https://www.apple.com/store".toList) ||
      "https://".toList.isPrefixOf
        (jsToLower "https://www.apple.com/store".toList)) = true) ∧
    containsSub (jsToLower "https://www.apple.com/store".toList)
      "apple.com".toList = true ∧
    processLinkValidation (fun _ => true) "https://www.apple.com/store".toList =
      ((if (fun (_ : List Char) => true) "https://www.apple.com/store".toList
        then LinkType.broken else LinkType.apple), 1) :=
  ⟨by decide, by decide,
   classify_apple "https://www.apple.com/store".toList (fun _ => true)
     (by decide) (by decide)⟩

theorem classify_nonhttp_witness :
    VALID_NON_HTTP_PROTOCOLS.any
      (fun q => q.isPrefixOf (jsToLower "mailto:a@b.com".toList)) = true ∧
    processLinkValidation (fun _ => true) "mailto:a@b.com".toList =
      (LinkType.skipped, 0) :=
  ⟨by decide,
   classify_nonhttp "mailto:a@b.com".toList (fun _ => true) (by decide)⟩

theorem classify_invalid_witness :
    VALID_NON_HTTP_PROTOCOLS.any
      (fun q => q.isPrefixOf (jsToLower "htp://example.com".toList)) = false ∧
    ("http://".toList.isPrefixOf (jsToLower "htp://example.com".toList) ||
     "https://".toList.isPrefixOf (jsToLower "htp://example.com".toList)) = false ∧
    processLinkValidation (fun _ => true) "htp://example.com".toList =
      (LinkType.invalid, 0) :=
  ⟨by decide, by decide,
   classify_invalid "htp://example.com".toList (fun _ => true)
     (by decide) (by decide)⟩

theorem trimEndLoop_spaces (lt : List Char) (tStart : Nat) (d : Nat) :
    ∀ e, tStart ≤ e →
      (∀ i, e ≤ i → i < e + d → lt.getD i 'A' = ' ') →
      trimEndLoop lt tStart (e + d) = trimEndLoop lt tStart e := by
  induction d with
  | zero => intro e _ _; rfl
  | succ n ih =>
    intro e he hsp
    have h1 : e + (n + 1) = (e + n) + 1 := by omega
    rw [h1]
    have h2 : trimEndLoop lt tStart ((e + n) + 1) = trimEndLoop lt tStart (e + n) := by
      simp only [trimEndLoop]
      have hc : (decide (tStart < e + n + 1) && (lt.getD (e + n) 'A' == ' ')) = true := by
        have hsp2 := hsp (e + n) (by omega) (by omega)
        have hlt : tStart < e + n + 1 := by omega
        simp only [List.getD_eq_getElem?_getD] at hsp2
        simp [hsp2, hlt]
      rw [hc]
      simp
    rw [h2]
    exact ih e he (fun i h1i h2i => hsp i h1i (by omega))

theorem trimEndLoop_stop (lt : List Char) (tStart : Nat) (e : Nat)
    (h : tStart + 1 ≤ e → lt.getD (e - 1) 'A' ≠ ' ') :
    trimEndLoop lt tStart e = e := by
  cases e with
  | zero => rfl
  | succ k =>
    simp only [trimEndLoop]
    have hc : (decide (tStart < k + 1) && (lt.getD k 'A' == ' ')) = false := by
      by_cases hk : tStart < k + 1
      · have h2 := h (by omega)
        simp only [Nat.add_sub_cancel] at h2
        simp only [List.getD_eq_getElem?_getD] at h2
        simp [hk, h2]
      · simp [hk]
    rw [hc]
    simp

theorem trimEndLoop_self (lt : List Char) (t : Nat) :
    trimEndLoop lt t t = t := by
  cases t with
  | zero => rfl
  | succ k =>
    simp [trimEndLoop]

/-- Claim C5 (amended): trimLinkSpaces computes bounds that exclude
exactly the leading and trailing ASCII spaces of the linked text and a
flag that is true exactly when the bounds changed; but it is not free
of host calls: whenever trimming is needed it strips the link from the
old range, removes the underline from the shaved-off spaces, and
re-applies the link to the trimmed span through document-host calls.
It leaves the bounds unchanged with a false flag and no host calls
when nothing needs trimming, and also when the linked text consists
entirely of spaces (the source's early return once no content remains
after trimming).  The linked text is presented here as leading spaces,
a core with non-space first and last characters, and trailing spaces;
an empty core (with the trailing-space count folded into the leading
ones) is the all-space case. -/
theorem trimLinkSpaces_spec (elementText : List Char) (link : LinkInfo)
    (u v : Nat) (mid : List Char)
    (hh : ∀ c, mid.head? = some c → c ≠ ' ')
    (hl : ∀ c, mid.getLast? = some c → c ≠ ' ')
    (hv : mid = [] → v = 0)
    (hdec : jsSubstring elementText link.startOffset link.endOffset =
      List.replicate u ' ' ++ mid ++ List.replicate v ' ') :
    trimLinkSpaces elementText link =
      if mid = [] then ((link.url, false), link, [])
      else if u = 0 ∧ v = 0 then ((link.url, false), link, [])
      else ((link.url, true),
            ⟨link.url, link.startOffset + u,
             link.startOffset + u + mid.length⟩,
            [HostCall.setLinkUrl link.startOffset (link.endOffset - 1) none] ++
            (if 0 < u then
               [HostCall.setUnderline link.startOffset
                 (link.startOffset + u - 1) false]
             else []) ++
            (if 0 < v then
               [HostCall.setUnderline (link.startOffset + u + mid.length)
                 (link.endOffset - 1) false]
             else []) ++
            [HostCall.setLinkUrl (link.startOffset + u)
              (link.startOffset + u + mid.length - 1) (some link.url)]) := by
  obtain ⟨lurl, ls, le⟩ := link
  cases mid with
  | nil =>
    rw [if_pos rfl]
    have hv0 : v = 0 := hv rfl
    subst hv0
    have hdec2 : jsSubstring elementText
        ({ url := lurl, startOffset := ls, endOffset := le } :
          LinkInfo).startOffset
        ({ url := lurl, startOffset := ls, endOffset := le } :
          LinkInfo).endOffset = List.replicate u ' ' := by
      simpa using hdec
    have hts0 : ∀ n : Nat,
        ((List.replicate n ' ').takeWhile (fun c => c == ' ')) =
          List.replicate n ' ' := by
      intro n
      induction n with
      | zero => rfl
      | succ k ih => simp [List.replicate_succ, List.takeWhile_cons, ih]
    simp only [trimLinkSpaces, hdec2, hts0 u, List.length_replicate,
      trimEndLoop_self]
    by_cases hu : u = 0
    · subst hu
      simp
    · have hb : (u == 0 && u == u) = false := by
        simp [hu]
      rw [hb]
      simp only [Bool.false_eq_true, if_false]
      rw [if_pos (Nat.le_refl (ls + u))]
  | cons c m2 =>
    rw [if_neg (by simp)]
    have hc : c ≠ ' ' := hh c rfl
    have hcb : (c == ' ') = false := by simp [hc]
    set lt : List Char :=
      List.replicate u ' ' ++ (c :: m2) ++ List.replicate v ' ' with hltdef
    have hL : (c :: m2).length = m2.length + 1 := by simp
    have hltlen : lt.length = u + (c :: m2).length + v := by
      simp [hltdef, List.length_append, List.length_replicate]
      omega
    have hts : (lt.takeWhile (fun x => x == ' ')).length = u := by
      rw [hltdef, List.append_assoc, List.takeWhile_append_of_pos (by
        intro a ha
        simp [List.eq_of_mem_replicate ha])]
      simp [List.cons_append, List.takeWhile_cons, hcb, List.length_replicate]
    have hsp : ∀ i, u + (c :: m2).length ≤ i → i < u + (c :: m2).length + v →
        lt.getD i 'A' = ' ' := by
      intro i h1 h2
      rw [hltdef, List.getD_eq_getElem?_getD, List.getElem?_append_right (by
        simp only [List.length_append, List.length_replicate, List.length_cons]
        omega)]
      rw [List.getElem?_replicate, if_pos (by
        simp only [List.length_append, List.length_replicate, List.length_cons]
        omega)]
      rfl
    have hlast : lt.getD (u + (c :: m2).length - 1) 'A' ≠ ' ' := by
      rw [hltdef, List.getD_eq_getElem?_getD, List.getElem?_append_left (by
        simp only [List.length_append, List.length_replicate, List.length_cons]
        omega)]
      rw [List.getElem?_append_right (by
        simp only [List.length_replicate]
        omega)]
      have hidx : u + (c :: m2).length - 1 - (List.replicate u ' ').length =
          (c :: m2).length - 1 := by
        simp only [List.length_replicate]
        omega
      rw [hidx, ← List.getLast?_eq_getElem?]
      obtain ⟨d, hd⟩ : ∃ d, (c :: m2).getLast? = some d :=
        ⟨(c :: m2).getLast (by simp), List.getLast?_eq_getLast _ _⟩
      rw [hd]
      simpa using hl d hd
    have hte : trimEndLoop lt u lt.length = u + (c :: m2).length := by
      rw [hltlen]
      rw [trimEndLoop_spaces lt u v (u + (c :: m2).length) (by omega) hsp]
      exact trimEndLoop_stop lt u _ (fun _ => hlast)
    simp only [trimLinkSpaces, hdec, ← hltdef]
    rw [hts, hte, hltlen]
    by_cases huv : u = 0 ∧ v = 0
    · obtain ⟨rfl, rfl⟩ := huv
      simp
    · rw [if_neg huv]
      have hcond : (u == 0 && (u + (c :: m2).length == u + (c :: m2).length + v))
          = false := by
        rw [Bool.eq_false_iff]
        intro hcontra
        simp only [Bool.and_eq_true, beq_iff_eq] at hcontra
        exact huv ⟨hcontra.1, by omega⟩
      rw [hcond]
      simp only [Bool.false_eq_true, if_false]
      rw [if_neg (by omega)]
      simp only [Nat.add_assoc]
      simp only [show (u + ((c :: m2).length + v)) = (u + (c :: m2).length + v)
        by omega]
      simp only [show (u + (c :: m2).length < u + (c :: m2).length + v) ↔
        (0 < v) by omega]

theorem trimLinkSpaces_host_calls :
    (trimLinkSpaces "  hello  ".toList ⟨"u".toList, 0, 9⟩ =
      (("u".toList, true), ⟨"u".toList, 2, 7⟩,
       [HostCall.setLinkUrl 0 8 none, HostCall.setUnderline 0 1 false,
        HostCall.setUnderline 7 8 false,
        HostCall.setLinkUrl 2 6 (some "u".toList)]) ∧
     (trimLinkSpaces "  hello  ".toList ⟨"u".toList, 0, 9⟩).2.2 ≠ []) ∧
    trimLinkSpaces "   ".toList ⟨"u".toList, 0, 3⟩ =
      (("u".toList, false), ⟨"u".toList, 0, 3⟩, []) := by
  decide

theorem trimLinkSpaces_spec_witness :
    ("hello".toList = [] → (2 : Nat) = 0) ∧
    jsSubstring "  hello  ".toList 0 9 =
      List.replicate 2 ' ' ++ "hello".toList ++ List.replicate 2 ' ' ∧
    trimLinkSpaces "  hello  ".toList ⟨"u".toList, 0, 9⟩ =
      (("u".toList, true), ⟨"u".toList, 2, 7⟩,
       [HostCall.setLinkUrl 0 8 none, HostCall.setUnderline 0 1 false,
        HostCall.setUnderline 7 8 false,
        HostCall.setLinkUrl 2 6 (some "u".toList)]) := by
  refine ⟨by decide, by decide, ?_⟩
  have h := trimLinkSpaces_spec "  hello  ".toList ⟨"u".toList, 0, 9⟩ 2 2
    "hello".toList
    (by
      intro c hc
      have h3 := Option.some.inj hc
      subst h3
      decide)
    (by
      intro c hc
      have h3 := Option.some.inj hc
      subst h3
      decide)
    (by decide)
    (by decide)
  rw [if_neg (by decide : ¬("hello".toList = []))] at h
  simpa using h

theorem initialCapsGo_length (s : List Char) :
    ∀ b, (initialCapsGo b s).length = s.length := by
  induction s with
  | nil => intro b; rfl
  | cons c t ih =>
    intro b
    simp only [initialCapsGo, List.length_cons, ih]

theorem initialCapsGo_getD (s : List Char) :
    ∀ b i, i < s.length →
      (initialCapsGo b s).getD i 'A' =
        if jsWordChar (s.getD i 'A') &&
           (if i = 0 then b else !jsWordChar (s.getD (i - 1) 'A')) then
          (s.getD i 'A').toUpper
        else s.getD i 'A' := by
  induction s with
  | nil => intro b i hi; simp at hi
  | cons c t ih =>
    intro b i hi
    cases i with
    | zero =>
      simp only [initialCapsGo, List.getD_cons_zero, if_pos rfl]
      cases b <;> cases hw : jsWordChar c <;> simp [hw]
    | succ j =>
      simp only [initialCapsGo, List.getD_cons_succ]
      have hj : j < t.length := by simpa using hi
      rw [ih (!jsWordChar c) j hj]
      cases j with
      | zero => simp
      | succ k => simp

/-- Claim C8: toInitialCaps uppercases the first character of every
maximal run of word characters (a no-op on digits and underscore, whose
uppercase form is themselves) and leaves every other character
unchanged; interior letters are never forced to lowercase.  The
characterization is positional: the character at index i is uppercased
exactly when it is a word character and is either at index 0 or
preceded by a non-word character.  In particular
toInitialCaps("hello-world foo") equals "Hello-World Foo". -/
theorem convertToInitialCaps_spec (s : List Char) :
    ((convertToInitialCaps s).length = s.length ∧
     ∀ i, i < s.length →
       (convertToInitialCaps s).getD i 'A' =
         if jsWordChar (s.getD i 'A') &&
            (if i = 0 then true else !jsWordChar (s.getD (i - 1) 'A')) then
           (s.getD i 'A').toUpper
         else s.getD i 'A') ∧
    convertToInitialCaps "hello-world foo".toList =
      "Hello-World Foo".toList := by
  refine ⟨⟨initialCapsGo_length s true, ?_⟩, by decide⟩
  intro i hi
  exact initialCapsGo_getD s true i hi

theorem convertToInitialCaps_spec_witness :
    0 < "hello-world foo".toList.length ∧
    (convertToInitialCaps "hello-world foo".toList).getD 0 'A' =
      (if jsWordChar ("hello-world foo".toList.getD 0 'A') &&
          (if 0 = 0 then true
           else !jsWordChar ("hello-world foo".toList.getD (0 - 1) 'A')) then
        ("hello-world foo".toList.getD 0 'A').toUpper
      else "hello-world foo".toList.getD 0 'A') :=
  ⟨by decide,
   (convertToInitialCaps_spec "hello-world foo".toList).1.2 0 (by decide)⟩

theorem jsWhitespace_not_word (c : Char) (h : jsWhitespace c = true) :
    jsWordChar c = false := by
  simp only [jsWhitespace, Bool.or_eq_true, beq_iff_eq, Bool.and_eq_true,
    decide_eq_true_eq] at h
  simp only [jsWordChar, Bool.or_eq_true, beq_iff_eq, Bool.and_eq_true,
    decide_eq_true_eq, Bool.or_eq_false_iff, Bool.and_eq_false_iff,
    decide_eq_false_iff_not, beq_eq_false_iff_ne, ne_eq]
  omega

theorem decompose_eq (w p core tail : List Char)
    (hd : decompose w = some (p, core, tail)) :
    p = w.takeWhile (fun c => !jsWordChar c) ∧
    core = (w.dropWhile (fun c => !jsWordChar c)).takeWhile jsWordChar ∧
    tail = (w.dropWhile (fun c => !jsWordChar c)).dropWhile jsWordChar ∧
    core ≠ [] ∧ tail.any jsWordChar = false := by
  simp only [decompose] at hd
  split at hd
  · exact absurd hd (by simp)
  · rename_i hcond
    rw [Option.some.injEq, Prod.mk.injEq, Prod.mk.injEq] at hd
    obtain ⟨hp, hc, ht⟩ := hd
    simp only [Bool.not_eq_true, Bool.or_eq_false_iff, List.isEmpty_eq_false] at hcond
    exact ⟨hp.symm, hc.symm, ht.symm, hc ▸ hcond.1, ht ▸ hcond.2⟩

theorem decompose_append (w p core tail : List Char)
    (hd : decompose w = some (p, core, tail)) :
    w = p ++ core ++ tail := by
  obtain ⟨hp, hc, ht, _, _⟩ := decompose_eq w p core tail hd
  rw [hp, hc, ht, List.append_assoc, List.takeWhile_append_dropWhile,
    List.takeWhile_append_dropWhile]

theorem decompose_core_word (w p core tail : List Char)
    (hd : decompose w = some (p, core, tail)) :
    ∀ c ∈ core, jsWordChar c = true := by
  obtain ⟨_, hc, _, _, _⟩ := decompose_eq w p core tail hd
  intro c hmem
  rw [hc] at hmem
  exact List.mem_takeWhile_imp hmem

theorem decompose_any_word (w p core tail : List Char)
    (hd : decompose w = some (p, core, tail)) :
    w.any jsWordChar = true := by
  obtain ⟨_, _, _, hne, _⟩ := decompose_eq w p core tail hd
  obtain ⟨c, m2, rfl⟩ : ∃ c m2, core = c :: m2 := by
    cases core with
    | nil => exact absurd rfl hne
    | cons c m2 => exact ⟨c, m2, rfl⟩
  rw [decompose_append w p (c :: m2) tail hd]
  have hw : jsWordChar c = true :=
    decompose_core_word w p (c :: m2) tail hd c (by simp)
  simp [List.any_append, hw]

theorem sep_decompose_none (w : List Char) (h : everyCheck w = true) :
    decompose w = none := by
  simp only [everyCheck, Bool.or_eq_true] at h
  rcases h with ((hws | hd) | he) | hc
  · simp only [isWhitespaceToken, Bool.and_eq_true, List.all_eq_true] at hws
    have hdrop : w.dropWhile (fun c => !jsWordChar c) = [] := by
      rw [List.dropWhile_eq_nil_iff]
      intro c hm
      simp [jsWhitespace_not_word c (hws.2 c hm)]
    simp only [decompose, hdrop]
    simp
  · have : w = ['-'] := by simpa using hd
    subst this
    decide
  · have : w = ['—'] := by simpa using he
    subst this
    decide
  · have : w = [':'] := by simpa using hc
    subst this
    decide

theorem processToken_snd (words : List (List Char)) (idx : Nat) (flag : Bool)
    (w : List Char) : (processToken words idx flag w).2 = flagStep flag w := by
  by_cases h1 : (isWhitespaceToken w || w == ['-'] || w == ['—']) = true
  · simp [processToken, flagStep, h1]
  · by_cases h2 : (w == [':']) = true
    · simp [processToken, flagStep, h1, h2]
    · cases hd : decompose w with
      | none => simp [processToken, flagStep, h1, h2, hd]
      | some t =>
        obtain ⟨p, core, tail⟩ := t
        simp [processToken, flagStep, h1, h2, hd]

theorem mapTokensGo_get (words : List (List Char)) (ws : List (List Char)) :
    ∀ (idx k : Nat) (flag : Bool) (w : List Char),
      ws[k]? = some w →
      (mapTokensGo words idx flag ws)[k]? =
        some ((processToken words (idx + k)
          ((ws.take k).foldl flagStep flag) w).1) := by
  induction ws with
  | nil => intro idx k flag w h; simp at h
  | cons w0 rest ih =>
    intro idx k flag w h
    cases k with
    | zero =>
      simp only [List.getElem?_cons_zero, Option.some.injEq] at h
      subst h
      simp [mapTokensGo]
    | succ k2 =>
      simp only [List.getElem?_cons_succ] at h
      have h2 := ih (idx + 1) k2 (flagStep flag w0) w h
      simp only [mapTokensGo, List.getElem?_cons_succ]
      rw [processToken_snd, h2]
      have hidx : idx + 1 + k2 = idx + (k2 + 1) := by omega
      rw [hidx]
      have htake : ((w0 :: rest).take (k2 + 1)).foldl flagStep flag =
          (rest.take k2).foldl flagStep (flagStep flag w0) := by
        simp [List.take_succ_cons]
      rw [htake]

theorem splitEx_cons (w : List Char) (l : List (List Char)) :
    (∃ l₁ l₂, w :: l = l₁ ++ ([':'] : List Char) :: l₂ ∧
       ∀ u ∈ l₂, decompose u = none) ↔
      ((w = [':'] ∧ ∀ u ∈ l, decompose u = none) ∨
       (∃ l₁ l₂, l = l₁ ++ ([':'] : List Char) :: l₂ ∧
          ∀ u ∈ l₂, decompose u = none)) := by
  constructor
  · rintro ⟨l₁, l₂, heq, hall⟩
    cases l₁ with
    | nil =>
      simp only [List.nil_append, List.cons.injEq] at heq
      exact Or.inl ⟨heq.1, heq.2 ▸ hall⟩
    | cons x l₃ =>
      simp only [List.cons_append, List.cons.injEq] at heq
      exact Or.inr ⟨l₃, l₂, heq.2, hall⟩
  · rintro (⟨rfl, hall⟩ | ⟨l₁, l₂, rfl, hall⟩)
    · exact ⟨[], l, rfl, hall⟩
    · exact ⟨w :: l₁, l₂, rfl, hall⟩

theorem flagStep_eq_true_iff (flag : Bool) (w : List Char) :
    flagStep flag w = true ↔
      (w = [':'] ∨ (flag = true ∧ decompose w = none)) := by
  by_cases h1 : (isWhitespaceToken w || w == ['-'] || w == ['—']) = true
  · have hne : w ≠ [':'] := by
      intro hw
      subst hw
      revert h1
      decide
    have hnone : decompose w = none := by
      apply sep_decompose_none
      simp only [everyCheck, Bool.or_eq_true] at h1 ⊢
      tauto
    simp [flagStep, h1, hne, hnone]
  · by_cases h2 : (w == [':']) = true
    · have hw : w = [':'] := by simpa using h2
      subst hw
      simp [show flagStep flag [':'] = true from rfl]
    · have hne : w ≠ [':'] := by
        intro hw
        subst hw
        simp at h2
      cases hd : decompose w with
      | none => simp [flagStep, h1, h2, hd, hne]
      | some t =>
        obtain ⟨p, core, tail⟩ := t
        have hany : w.any jsWordChar = true :=
          decompose_any_word w p core tail hd
        cases flag <;> simp [flagStep, h1, h2, hd, hne, hany]

theorem flagFold_iff (l : List (List Char)) :
    ∀ flag : Bool,
      (l.foldl flagStep flag = true ↔
        ((∃ l₁ l₂, l = l₁ ++ ([':'] : List Char) :: l₂ ∧
            ∀ u ∈ l₂, decompose u = none) ∨
         (flag = true ∧ ∀ u ∈ l, decompose u = none))) := by
  induction l with
  | nil =>
    intro flag
    simp only [List.foldl_nil, List.not_mem_nil, false_implies, implies_true,
      and_true]
    constructor
    · intro h
      exact Or.inr h
    · rintro (⟨l₁, l₂, heq, _⟩ | h)
      · exact absurd heq (by simp)
      · exact h
  | cons w l ih =>
    intro flag
    rw [List.foldl_cons, ih (flagStep flag w), splitEx_cons]
    have hb := flagStep_eq_true_iff flag w
    simp only [List.mem_cons, forall_eq_or_imp]
    constructor
    · rintro (hsp | ⟨hf, hall⟩)
      · exact Or.inl (Or.inr hsp)
      · rcases hb.mp hf with hcolon | ⟨hflag, hnone⟩
        · exact Or.inl (Or.inl ⟨hcolon, hall⟩)
        · exact Or.inr ⟨hflag, hnone, hall⟩
    · rintro ((⟨hcolon, hall⟩ | hsp) | ⟨hflag, hnone, hall⟩)
      · exact Or.inr ⟨hb.mpr (Or.inl hcolon), hall⟩
      · exact Or.inl hsp
      · exact Or.inr ⟨hb.mpr (Or.inr ⟨hflag, hnone⟩), hall⟩

theorem titleTokens_get (s : List Char) (idx : Nat) (w : List Char)
    (h : (splitTokens s)[idx]? = some w) :
    (titleTokens s)[idx]? =
      some ((processToken (splitTokens s) idx (flagAt (splitTokens s) idx)
        w).1) := by
  have h2 := mapTokensGo_get (splitTokens s) (splitTokens s) 0 idx false w h
  simpa [titleTokens, flagAt] using h2

theorem processToken_word (words : List (List Char)) (idx : Nat) (flag : Bool)
    (w p core tail : List Char) (hd : decompose w = some (p, core, tail)) :
    (processToken words idx flag w).1 =
      p ++ (if (words.take idx).all everyCheck ||
               (words.drop (idx + 1)).all everyCheck || flag ||
               !(stopWords.contains (jsToLower core)) then
              capFirst (jsToLower core)
            else jsToLower core) ++ tail := by
  have hb1 : (isWhitespaceToken w || w == ['-'] || w == ['—']) = false := by
    rw [Bool.eq_false_iff]
    intro hb
    have hec : everyCheck w = true := by
      simp only [everyCheck, Bool.or_eq_true] at hb ⊢
      tauto
    rw [sep_decompose_none w hec] at hd
    cases hd
  have hb2 : (w == [':']) = false := by
    rw [Bool.eq_false_iff]
    intro hb
    have hec : everyCheck w = true := by
      simp only [everyCheck, Bool.or_eq_true]
      tauto
    rw [sep_decompose_none w hec] at hd
    cases hd
  simp only [processToken, hb1, hb2, Bool.false_eq_true, if_false, hd]

/-- Claim C1: in toTitleCase, the core of a word-bearing token (one the
decomposition pattern accepts) is capitalized exactly when the token is
first (every earlier token of the split is whitespace, a bare dash, or a
bare colon), or last (every later token is such), or the
afterColonOrDash flag is set, or the lowercased core is not in the
stop-word set; otherwise the core is emitted fully lowercased.  The
flag is set exactly when a bare colon token occurs among the earlier
tokens with no word-bearing token after it. -/
theorem titleCase_cap_iff (s : List Char) (idx : Nat)
    (w p core tail : List Char)
    (hw : (splitTokens s)[idx]? = some w)
    (hd : decompose w = some (p, core, tail)) :
    (titleTokens s)[idx]? =
      some (p ++
        (if ((splitTokens s).take idx).all everyCheck ||
            ((splitTokens s).drop (idx + 1)).all everyCheck ||
            flagAt (splitTokens s) idx ||
            !(stopWords.contains (jsToLower core)) then
          capFirst (jsToLower core)
        else jsToLower core) ++ tail) ∧
    (flagAt (splitTokens s) idx = true ↔
      ∃ l₁ l₂, (splitTokens s).take idx = l₁ ++ ([':'] : List Char) :: l₂ ∧
        ∀ u ∈ l₂, decompose u = none) := by
  constructor
  · rw [titleTokens_get s idx w hw, processToken_word _ _ _ _ _ _ _ hd]
  · rw [flagAt, flagFold_iff ((splitTokens s).take idx) false]
    simp

theorem titleCase_cap_iff_witness :
    (splitTokens "a: of b".toList)[4]? = some "of".toList ∧
    decompose "of".toList = some ([], "of".toList, []) ∧
    ((titleTokens "a: of b".toList)[4]? =
      some (([] : List Char) ++
        (if ((splitTokens "a: of b".toList).take 4).all everyCheck ||
            ((splitTokens "a: of b".toList).drop (4 + 1)).all everyCheck ||
            flagAt (splitTokens "a: of b".toList) 4 ||
            !(stopWords.contains (jsToLower "of".toList)) then
          capFirst (jsToLower "of".toList)
        else jsToLower "of".toList) ++ []) ∧
     (flagAt (splitTokens "a: of b".toList) 4 = true ↔
       ∃ l₁ l₂, (splitTokens "a: of b".toList).take 4 =
           l₁ ++ ([':'] : List Char) :: l₂ ∧ ∀ u ∈ l₂, decompose u = none)) :=
  ⟨by decide, by decide,
   titleCase_cap_iff "a: of b".toList 4 "of".toList [] "of".toList []
     (by decide) (by decide)⟩

theorem titleCase_dash_counterexample :
    convertToTitleCase "war - and peace".toList = "War - and Peace".toList ∧
    "War - and Peace".toList ≠ "War - And Peace".toList := by
  decide

/-- Claim C7 (amended): in toTitleCase a stop word is lowercased unless
it is the first or last word-bearing token or the afterColonOrDash flag
is set, and only a bare colon sets the flag: a stop-word token that is
neither first nor last and whose flag is unset, in particular one that
immediately follows a bare dash with no active colon, is emitted fully
lowercased, not capitalized. -/
theorem titleCase_stopword_lower (s : List Char) (idx : Nat)
    (w p core tail : List Char)
    (hw : (splitTokens s)[idx]? = some w)
    (hd : decompose w = some (p, core, tail))
    (hstop : stopWords.contains (jsToLower core) = true)
    (hfirst : ((splitTokens s).take idx).all everyCheck = false)
    (hlast : ((splitTokens s).drop (idx + 1)).all everyCheck = false)
    (hflag : flagAt (splitTokens s) idx = false) :
    (titleTokens s)[idx]? = some (p ++ jsToLower core ++ tail) := by
  rw [titleTokens_get s idx w hw, processToken_word _ _ _ _ _ _ _ hd]
  rw [hfirst, hlast, hflag, hstop]
  simp

theorem titleCase_stopword_lower_witness :
    (splitTokens "war - and peace".toList)[6]? = some "and".toList ∧
    decompose "and".toList = some ([], "and".toList, []) ∧
    stopWords.contains (jsToLower "and".toList) = true ∧
    ((splitTokens "war - and peace".toList).take 6).all everyCheck = false ∧
    ((splitTokens "war - and peace".toList).drop (6 + 1)).all everyCheck
      = false ∧
    flagAt (splitTokens "war - and peace".toList) 6 = false ∧
    (titleTokens "war - and peace".toList)[6]? =
      some (([] : List Char) ++ jsToLower "and".toList ++ []) :=
  ⟨by decide, by decide, by decide, by decide, by decide, by decide,
   titleCase_stopword_lower "war - and peace".toList 6 "and".toList []
     "and".toList [] (by decide) (by decide) (by decide) (by decide)
     (by decide) (by decide)⟩

/-- Claim C10: every token the decomposition pattern accepts is emitted
as its affixes around a core that is the fully lowercased core word with
at most the first character uppercased, so interior uppercase letters of
the input are forced to lowercase (no character of the lowercased core
is an ASCII uppercase letter); tokens the pattern rejects pass through
unchanged, with their original casing. -/
theorem titleCase_core_shape (s : List Char) (idx : Nat) (w : List Char)
    (hw : (splitTokens s)[idx]? = some w) :
    (∀ p core tail, decompose w = some (p, core, tail) →
      ((titleTokens s)[idx]? = some (p ++ jsToLower core ++ tail) ∨
       (titleTokens s)[idx]? = some (p ++ capFirst (jsToLower core) ++ tail))
      ∧ ∀ c ∈ jsToLower core, ¬(65 ≤ c.toNat ∧ c.toNat ≤ 90)) ∧
    (decompose w = none → (titleTokens s)[idx]? = some w) := by
  constructor
  · intro p core tail hd
    constructor
    · rw [titleTokens_get s idx w hw, processToken_word _ _ _ _ _ _ _ hd]
      split
      · exact Or.inr rfl
      · exact Or.inl rfl
    · intro c hmem
      have hex : ∃ d ∈ core, c ∈ jsLowerChar d := by
        simpa [jsToLower, List.mem_flatten, List.mem_map] using hmem
      obtain ⟨d, hdm, hcm⟩ := hex
      have hword : jsWordChar d = true :=
        decompose_core_word w p core tail hd d hdm
      simp only [jsWordChar, Bool.or_eq_true, Bool.and_eq_true,
        decide_eq_true_eq, beq_iff_eq] at hword
      have hne : (d.toNat == 0x130) = false := by
        simp only [beq_eq_false_iff_ne, ne_eq]
        omega
      simp only [jsLowerChar, hne, Bool.false_eq_true, if_false,
        List.mem_singleton] at hcm
      subst hcm
      rw [toNat_toLower]
      split <;> omega
  · intro hd
    rw [titleTokens_get s idx w hw]
    have hpt : (processToken (splitTokens s) idx
        (flagAt (splitTokens s) idx) w).1 = w := by
      by_cases h1 : (isWhitespaceToken w || w == ['-'] || w == ['—']) = true
      · simp [processToken, h1]
      · by_cases h2 : (w == [':']) = true
        · simp [processToken, h1, h2]
        · simp [processToken, h1, h2, hd]
    rw [hpt]

theorem titleCase_core_shape_witness :
    (splitTokens "visit USA".toList)[2]? = some "USA".toList ∧
    decompose "USA".toList = some ([], "USA".toList, []) ∧
    ((titleTokens "visit USA".toList)[2]? =
       some (([] : List Char) ++ jsToLower "USA".toList ++ []) ∨
     (titleTokens "visit USA".toList)[2]? =
       some (([] : List Char) ++ capFirst (jsToLower "USA".toList) ++ [])) :=
  ⟨by decide, by decide,
   ((titleCase_core_shape "visit USA".toList 2 "USA".toList (by decide)).1
     [] "USA".toList [] (by decide)).1⟩

theorem caseEqP_refl (c : Char) : caseEqP c c := rfl

theorem caseEqP_toLower (c : Char) : caseEqP c c.toLower := by
  simp only [caseEqP, caseFold, toNat_toLower]
  split_ifs <;> omega

theorem caseEqP_toUpper (c : Char) : caseEqP c c.toUpper := by
  simp only [caseEqP, caseFold, toNat_toUpper]
  split_ifs <;> omega

theorem caseEqP_lower_upper (c : Char) : caseEqP c c.toLower.toUpper := by
  simp only [caseEqP, caseFold, toNat_toUpper, toNat_toLower]
  split_ifs <;> omega

theorem forall2_caseEqP_refl (l : List Char) : List.Forall₂ caseEqP l l :=
  List.forall₂_same.mpr (fun _ _ => caseEqP_refl _)

theorem forall2_map_toLower (l : List Char) :
    List.Forall₂ caseEqP l (l.map Char.toLower) := by
  induction l with
  | nil => exact List.Forall₂.nil
  | cons c t ih => exact List.Forall₂.cons (caseEqP_toLower c) ih

theorem jsLowerChar_ascii (c : Char) (h : c.toNat < 128) :
    jsLowerChar c = [c.toLower] := by
  have hne : (c.toNat == 0x130) = false := by
    simp only [beq_eq_false_iff_ne, ne_eq]
    omega
  simp [jsLowerChar, hne]

theorem jsUpperChar_ascii (c : Char) (h : c.toNat < 128) :
    jsUpperChar c = [c.toUpper] := by
  have hne : (c.toNat == 0xDF) = false := by
    simp only [beq_eq_false_iff_ne, ne_eq]
    omega
  simp [jsUpperChar, hne]

theorem jsToLower_ascii (s : List Char) (h : ∀ c ∈ s, c.toNat < 128) :
    jsToLower s = s.map Char.toLower := by
  induction s with
  | nil => rfl
  | cons c t ih =>
    have hc : jsLowerChar c = [c.toLower] :=
      jsLowerChar_ascii c (h c (by simp))
    have ht : jsToLower t = t.map Char.toLower :=
      ih (fun d hd => h d (by simp [hd]))
    simp [jsToLower, hc] at ht ⊢
    exact ht

theorem jsToUpper_ascii (s : List Char) (h : ∀ c ∈ s, c.toNat < 128) :
    jsToUpper s = s.map Char.toUpper := by
  induction s with
  | nil => rfl
  | cons c t ih =>
    have hc : jsUpperChar c = [c.toUpper] :=
      jsUpperChar_ascii c (h c (by simp))
    have ht : jsToUpper t = t.map Char.toUpper :=
      ih (fun d hd => h d (by simp [hd]))
    simp [jsToUpper, hc] at ht ⊢
    exact ht

theorem forall2_map_toUpper (l : List Char) :
    List.Forall₂ caseEqP l (l.map Char.toUpper) := by
  induction l with
  | nil => exact List.Forall₂.nil
  | cons c t ih => exact List.Forall₂.cons (caseEqP_toUpper c) ih

theorem forall2_initialCapsGo (l : List Char) :
    ∀ b, List.Forall₂ caseEqP l (initialCapsGo b l) := by
  induction l with
  | nil => intro b; exact List.Forall₂.nil
  | cons c t ih =>
    intro b
    refine List.Forall₂.cons ?_ (ih (!jsWordChar c))
    split
    · exact caseEqP_toUpper c
    · exact caseEqP_refl c

theorem splitGo_flatten (s : List Char) :
    ∀ (inWs : Bool) (acc : List Char),
      (splitGo inWs acc s).flatten = acc.reverse ++ s := by
  induction s with
  | nil =>
    intro inWs acc
    cases inWs <;> simp [splitGo]
  | cons c rest ih =>
    intro inWs acc
    cases inWs with
    | true =>
      by_cases hws : jsWhitespace c = true
      · simp [splitGo, hws, ih true (c :: acc)]
      · by_cases hsep : isSepChar c = true
        · simp [splitGo, hws, hsep, ih false []]
        · simp [splitGo, hws, hsep, ih false [c]]
    | false =>
      by_cases hws : jsWhitespace c = true
      · simp [splitGo, hws, ih true [c]]
      · by_cases hsep : isSepChar c = true
        · simp [splitGo, hws, hsep, ih false []]
        · simp [splitGo, hws, hsep, ih false (c :: acc)]

theorem splitTokens_flatten (s : List Char) : (splitTokens s).flatten = s := by
  simp [splitTokens, splitGo_flatten s false []]

theorem forall2_core_emit (core : List Char)
    (hword : ∀ c ∈ core, jsWordChar c = true) (cond : Bool) :
    List.Forall₂ caseEqP core
      (if cond = true then capFirst (jsToLower core) else jsToLower core) := by
  have hascii : ∀ c ∈ core, c.toNat < 128 := by
    intro c hm
    have := hword c hm
    simp only [jsWordChar, Bool.or_eq_true, Bool.and_eq_true,
      decide_eq_true_eq, beq_iff_eq] at this
    omega
  rw [jsToLower_ascii core hascii]
  split
  · cases core with
    | nil => exact List.Forall₂.nil
    | cons d t =>
      have hd : d.toLower.toNat < 128 := by
        rw [toNat_toLower]
        have := hascii d (by simp)
        split <;> omega
      simp only [List.map_cons, capFirst, jsUpperChar_ascii d.toLower hd,
        List.singleton_append]
      exact List.Forall₂.cons (caseEqP_lower_upper d)
        (forall2_map_toLower t)
  · exact forall2_map_toLower core

theorem forall2_processToken (words : List (List Char)) (idx : Nat)
    (flag : Bool) (w : List Char) :
    List.Forall₂ caseEqP w ((processToken words idx flag w).1) := by
  by_cases h1 : (isWhitespaceToken w || w == ['-'] || w == ['—']) = true
  · simp only [processToken, h1, if_true]
    exact forall2_caseEqP_refl w
  · by_cases h2 : (w == [':']) = true
    · simp only [processToken, h1, Bool.false_eq_true, if_false, h2, if_true]
      exact forall2_caseEqP_refl w
    · cases hd : decompose w with
      | none =>
        simp only [processToken, h1, Bool.false_eq_true, if_false, h2, hd]
        exact forall2_caseEqP_refl w
      | some t =>
        obtain ⟨p, core, tail⟩ := t
        rw [processToken_word words idx flag w p core tail hd]
        rw [decompose_append w p core tail hd]
        apply List.rel_append
        · apply List.rel_append
          · exact forall2_caseEqP_refl p
          · exact forall2_core_emit core
              (decompose_core_word w p core tail hd) _
        · exact forall2_caseEqP_refl tail

theorem forall2_mapTokensGo (words ws : List (List Char)) :
    ∀ (idx : Nat) (flag : Bool),
      List.Forall₂ (List.Forall₂ caseEqP) ws (mapTokensGo words idx flag ws) := by
  induction ws with
  | nil => intro idx flag; exact List.Forall₂.nil
  | cons w rest ih =>
    intro idx flag
    exact List.Forall₂.cons (forall2_processToken words idx flag w)
      (ih (idx + 1) (processToken words idx flag w).2)

theorem forall2_titleCase (s : List Char) :
    List.Forall₂ caseEqP s (convertToTitleCase s) := by
  have h := List.rel_flatten
    (forall2_mapTokensGo (splitTokens s) (splitTokens s) 0 false)
  rw [splitTokens_flatten s] at h
  exact h

theorem forall2_sentence (s : List Char) (hascii : ∀ c ∈ s, c.toNat < 128) :
    List.Forall₂ caseEqP s (convertToSentenceCase s) := by
  simp only [convertToSentenceCase, jsToLower_ascii s hascii]
  cases s with
  | nil => exact List.Forall₂.nil
  | cons c t =>
    have hd : c.toLower.toNat < 128 := by
      rw [toNat_toLower]
      have := hascii c (by simp)
      split <;> omega
    show List.Forall₂ caseEqP (c :: t)
      (jsUpperChar c.toLower ++ t.map Char.toLower)
    rw [jsUpperChar_ascii c.toLower hd, List.singleton_append]
    exact List.Forall₂.cons (caseEqP_lower_upper c) (forall2_map_toLower t)

theorem caseOps_ascii_counterexample :
    convertToUpperCase "ß".toList = "SS".toList ∧
    (convertToUpperCase "ß".toList).length ≠ ("ß".toList).length := by
  decide

/-- Claim C2 (amended): on strings of characters whose case mappings are
single characters, in particular strings of ASCII characters, every
case-transformation operation returns a string of exactly the same
length that differs from the input only in ASCII letter case, never
inserting or deleting a character.  On full Unicode the claim fails:
the sharp s uppercases to the two-character string "SS". -/
theorem caseOps_ascii (s : List Char) (hascii : ∀ c ∈ s, c.toNat < 128) :
    ((convertToLowerCase s).length = s.length ∧
      List.Forall₂ caseEqP s (convertToLowerCase s)) ∧
    ((convertToUpperCase s).length = s.length ∧
      List.Forall₂ caseEqP s (convertToUpperCase s)) ∧
    ((convertToInitialCaps s).length = s.length ∧
      List.Forall₂ caseEqP s (convertToInitialCaps s)) ∧
    ((convertToSentenceCase s).length = s.length ∧
      List.Forall₂ caseEqP s (convertToSentenceCase s)) ∧
    ((convertToTitleCase s).length = s.length ∧
      List.Forall₂ caseEqP s (convertToTitleCase s)) := by
  have hlow : List.Forall₂ caseEqP s (convertToLowerCase s) := by
    simp only [convertToLowerCase, jsToLower_ascii s hascii]
    exact forall2_map_toLower s
  have hup : List.Forall₂ caseEqP s (convertToUpperCase s) := by
    simp only [convertToUpperCase, jsToUpper_ascii s hascii]
    exact forall2_map_toUpper s
  have hic : List.Forall₂ caseEqP s (convertToInitialCaps s) :=
    forall2_initialCapsGo s true
  have hsc : List.Forall₂ caseEqP s (convertToSentenceCase s) :=
    forall2_sentence s hascii
  have htc : List.Forall₂ caseEqP s (convertToTitleCase s) :=
    forall2_titleCase s
  exact ⟨⟨hlow.length_eq.symm, hlow⟩, ⟨hup.length_eq.symm, hup⟩,
    ⟨hic.length_eq.symm, hic⟩, ⟨hsc.length_eq.symm, hsc⟩,
    ⟨htc.length_eq.symm, htc⟩⟩

theorem caseOps_ascii_witness :
    ((convertToLowerCase "Hello".toList).length = "Hello".toList.length ∧
      List.Forall₂ caseEqP "Hello".toList
        (convertToLowerCase "Hello".toList)) ∧
    ((convertToUpperCase "Hello".toList).length = "Hello".toList.length ∧
      List.Forall₂ caseEqP "Hello".toList
        (convertToUpperCase "Hello".toList)) ∧
    ((convertToInitialCaps "Hello".toList).length = "Hello".toList.length ∧
      List.Forall₂ caseEqP "Hello".toList
        (convertToInitialCaps "Hello".toList)) ∧
    ((convertToSentenceCase "Hello".toList).length = "Hello".toList.length ∧
      List.Forall₂ caseEqP "Hello".toList
        (convertToSentenceCase "Hello".toList)) ∧
    ((convertToTitleCase "Hello".toList).length = "Hello".toList.length ∧
      List.Forall₂ caseEqP "Hello".toList
        (convertToTitleCase "Hello".toList)) :=
  caseOps_ascii "Hello".toList (by decide)
